import Mathlib

/-!
Verification of the color-rs core: the channel conversion contract
(src/channel.rs) and the RGB/HSV conversion algorithms (src/rgb.rs,
src/hsv.rs).

Modelling conventions:
* u8 and u16 channel values are `Nat` (with explicit wrapping where the
  Rust integer width matters); float channel values (f32/f64) are modelled
  as exact rationals `ℚ`.  All float arithmetic of the algorithms is
  idealized as exact rational arithmetic, except where a claim is about
  machine rounding itself: there a separate, explicitly named binary32
  rounding model (`fl32`) is used.
* Rust `%` on floats is truncated remainder (sign of the dividend),
  modelled by `fmodQ`; mathematical modulo (the claim-side reading of
  "mod") is `modReal`.
* The generic channel parameter `U` of `to_hsv`/`to_rgb` is always a
  float channel in the source (`U : FloatChannel`), so it is modelled by
  `ℚ`; the input/output channel encodings are passed as the per-channel
  conversion functions (`toF`, `fromF`), exactly the role `to_rgb::<U>()`
  plays in the source.
-/

/-- Truncation of a rational toward zero, the semantics of a Rust
`as`-cast from float to integer and of the integer part used by float `%`. -/
def ratTrunc (q : ℚ) : ℤ := if q < 0 then -(⌊-q⌋) else ⌊q⌋

/-- Rust `%` on floats: `a - b * trunc (a / b)` (remainder with the sign
of the dividend). -/
def fmodQ (a b : ℚ) : ℚ := a - b * (ratTrunc (a / b) : ℚ)

/-- Mathematical modulo on rationals: `a - b * ⌊a / b⌋`, in `[0, b)` for
`b > 0`.  This is the claim-side reading of "mod". -/
def modReal (a b : ℚ) : ℚ := a - b * ((⌊a / b⌋ : ℤ) : ℚ)

/-- src/channel.rs lines 27-33: the crate-local `max` — `if a < b { b }
else { a }`. -/
def chanMax (a b : ℚ) : ℚ := if a < b then b else a

/-- src/channel.rs lines 35-41: the crate-local `min` — `if a < b { a }
else { b }`. -/
def chanMin (a b : ℚ) : ℚ := if a < b then a else b

/-- RGB triple over a channel type, src/rgb.rs `struct Rgb<T>`. -/
structure Rgb (α : Type) where
  r : α
  g : α
  b : α
deriving DecidableEq

/-- HSV triple over a channel type, src/hsv.rs `struct Hsv<T>`. -/
structure Hsv (α : Type) where
  h : α
  s : α
  v : α
deriving DecidableEq

/-! ## Channel conversions, src/channel.rs -/

/-- src/channel.rs line 73: `(self as u16 << 8) | self as u16` — the byte
is replicated into both halves of the u16 (shift performed at u16 width). -/
def u8.to_channel_u16 (v : ℕ) : ℕ := ((v <<< 8) % 65536) ||| v

/-- src/channel.rs line 74: `(self as f32) / (0xFF_u8 as f32)` — float
division, idealized as exact. -/
def u8.to_channel_f32 (v : ℕ) : ℚ := (v : ℚ) / 255

/-- src/channel.rs line 77: `!self` on u8, bitwise complement. -/
def u8.invert_channel (v : ℕ) : ℕ := v ^^^ 255

/-- src/channel.rs line 82: `(self >> 8) as u8` — the high byte. -/
def u16.to_channel_u8 (v : ℕ) : ℕ := (v >>> 8) % 256

/-- src/channel.rs line 84: `(self / 0xFFFF) as f32`.  NOTE: this is the
source as written — `self / 0xFFFF` is u16 INTEGER division (0 for every
`v < 0xFFFF`, 1 for `v = 0xFFFF`), and only then is the quotient cast to
float. -/
def u16.to_channel_f32 (v : ℕ) : ℚ := ((v / 65535 : ℕ) : ℚ)

/-- src/channel.rs line 85: `(self / 0xFFFF) as f64`, the same integer
division as `to_channel_f32`. -/
def u16.to_channel_f64 (v : ℕ) : ℚ := ((v / 65535 : ℕ) : ℚ)

/-- src/channel.rs line 87: `!self` on u16, bitwise complement. -/
def u16.invert_channel (v : ℕ) : ℕ := v ^^^ 65535

/-- src/channel.rs line 93: `(self * (0xFFFF_u16 as f32)) as u16` — the
product truncated toward zero (the multiplication idealized as exact). -/
def f32.to_channel_u16 (q : ℚ) : ℤ := ratTrunc (q * 65535)

/-- src/channel.rs lines 97 and 107: `1.0 - self`, the float channel
invert, idealized as exact arithmetic. -/
def fchan.invert_channel (q : ℚ) : ℚ := 1 - q

/-- src/channel.rs lines 94-95 and 104-105: a float channel converted to a
float channel is a plain numeric widen/narrow, the identity in the
rational model. -/
def fchan.to_channel_f (q : ℚ) : ℚ := q

/-- src/channel.rs lines 53-61: `clamp(lo, hi)` — `if self < lo { lo }
else if self > hi { hi } else { self }`. -/
def clampQ (x lo hi : ℚ) : ℚ := if x < lo then lo else if hi < x then hi else x

/-- src/channel.rs lines 111-114: `normalize_channel` clamps to `[0, 1]`. -/
def normalize_channel (q : ℚ) : ℚ := clampQ q 0 1

/-- src/channel.rs lines 116-123: `normalize_degrees` — a single `+ 360`
wrap for a negative input, then Rust float `%` by 360. -/
def normalize_degrees (q : ℚ) : ℚ :=
  if q < 0 then fmodQ (q + 360) 360 else fmodQ q 360

/-- src/channel.rs lines 125-128: `invert_degrees` rotates the hue by 180
degrees and renormalizes. -/
def invert_degrees (q : ℚ) : ℚ := normalize_degrees (q + 180)

/-! ## RGB, src/rgb.rs -/

/-- src/rgb.rs lines 178-185: `Rgb::to_rgb::<U>` converts each component
with the channel conversion of the target encoding; the conversion is
passed as the function `toC`. -/
def Rgb.to_rgb {α β : Type} (toC : α → β) (c : Rgb α) : Rgb β :=
  ⟨toC c.r, toC c.g, toC c.b⟩

/-- src/rgb.rs lines 300-327: `Rgb::to_hsv::<U>` for a float target
channel `U` (modelled by `ℚ`); `toF` is the source channel encoding's
to-float conversion used by `self.to_rgb::<U>()`.  The `cast::<U,f64>`
round-trips around `max`/`min` are exact for float channels and are the
identity in the model. -/
def Rgb.to_hsv {α : Type} (toF : α → ℚ) (c : Rgb α) : Hsv ℚ :=
  let rgb_u := Rgb.to_rgb toF c
  let mx := chanMax (chanMax rgb_u.r rgb_u.g) rgb_u.b
  let mn := chanMin (chanMin rgb_u.r rgb_u.g) rgb_u.b
  let chr := mx - mn
  if chr ≠ 0 then
    let h :=
      (if rgb_u.r = mx then fmodQ ((rgb_u.g - rgb_u.b) / chr) 6
       else if rgb_u.g = mx then (rgb_u.b - rgb_u.r) / chr + 2
       else (rgb_u.r - rgb_u.g) / chr + 4) * 60
    let s := chr / mx
    ⟨h, s, mx⟩
  else
    ⟨0, 0, mx⟩

/-- The RGB-to-HSV max/min/chroma hue-sector algorithm on a normalized
float triple, as spec section 4.2 describes the internal float
computation (the body of src/rgb.rs lines 308-325 on float values). -/
def rgbToHsvFloat (c : Rgb ℚ) : Hsv ℚ :=
  let mx := chanMax (chanMax c.r c.g) c.b
  let mn := chanMin (chanMin c.r c.g) c.b
  let chr := mx - mn
  if chr ≠ 0 then
    let h :=
      (if c.r = mx then fmodQ ((c.g - c.b) / chr) 6
       else if c.g = mx then (c.b - c.r) / chr + 2
       else (c.r - c.g) / chr + 4) * 60
    let s := chr / mx
    ⟨h, s, mx⟩
  else
    ⟨0, 0, mx⟩

/-- src/hsv.rs lines 98-105: converting an HSV value to a float target
channel converts each component; for a float target this is the identity
conversion `fchan.to_channel_f` on every component. -/
def hsvToTarget (c : Hsv ℚ) : Hsv ℚ :=
  ⟨fchan.to_channel_f c.h, fchan.to_channel_f c.s, fchan.to_channel_f c.v⟩

/-! ## HSV, src/hsv.rs -/

/-- src/hsv.rs lines 107-136: `Hsv::to_rgb::<U>`; `fromF` is the target
encoding's from-float conversion applied by the final
`rgb.to_rgb::<U>()`. -/
def Hsv.to_rgb {α : Type} (fromF : ℚ → α) (c : Hsv ℚ) : Rgb α :=
  let chr := c.v * c.s
  let h := c.h / 60
  let x := chr * (1 - |fmodQ h 2 - 1|)
  let rgb :=
    if h < 1 then (⟨chr, x, 0⟩ : Rgb ℚ)
    else if h < 2 then ⟨x, chr, 0⟩
    else if h < 3 then ⟨0, chr, x⟩
    else if h < 4 then ⟨0, x, chr⟩
    else if h < 5 then ⟨x, 0, chr⟩
    else if h < 6 then ⟨chr, 0, x⟩
    else ⟨0, 0, 0⟩
  let mn := c.v - chr
  Rgb.to_rgb fromF ⟨rgb.r + mn, rgb.g + mn, rgb.b + mn⟩

/-- src/hsv.rs lines 52-58: `Hsv::inverse` — `invert_degrees` on the hue,
the float channel invert on s and v. -/
def Hsv.inverse (c : Hsv ℚ) : Hsv ℚ :=
  ⟨invert_degrees c.h, fchan.invert_channel c.s, fchan.invert_channel c.v⟩

/-- src/hsv.rs lines 61-70: `Hsv::normalize` — `normalize_degrees` on the
hue, `normalize_channel` on s and v. -/
def Hsv.normalize (c : Hsv ℚ) : Hsv ℚ :=
  ⟨normalize_degrees c.h, normalize_channel c.s, normalize_channel c.v⟩

/-- src/hsv.rs lines 84-89: `ToHsv for u32` runs
`fail!("Not yet implemented")` — a runtime failure on every input,
modelled as `none`. -/
def u32.to_hsv (_v : ℕ) : Option (Hsv ℚ) := none

/-- src/hsv.rs lines 91-96: `ToHsv for u64`, the same runtime failure. -/
def u64.to_hsv (_v : ℕ) : Option (Hsv ℚ) := none

/-! ## Claim C1 and C8 theorems (evaluations at the failing inputs) -/

/-- C1: the code of `u16::to_channel_f32` / `to_channel_f64`
(src/channel.rs lines 84-85) divides in u16 integer arithmetic before
casting, so `0x8000` maps to `0.0`, not to `0x8000 / 65535.0` as the
claim states; only the boundary values `0x0000` and `0xFFFF` agree with
the claim. -/
theorem u16_to_float_bug :
    u16.to_channel_f32 0x8000 = 0 ∧
    u16.to_channel_f64 0x8000 = 0 ∧
    (0x8000 : ℚ) / 65535 ≠ 0 ∧
    u16.to_channel_f32 0x0000 = 0 ∧
    u16.to_channel_f32 0xFFFF = 1 := by
  refine ⟨rfl, rfl, by norm_num, rfl, rfl⟩

/-- C8: converting a packed u32 or u64 directly to HSV is a runtime
failure (`fail!`) on every input, here at input 0 — the program does not
satisfy the claim that this path raises no runtime failure. -/
theorem packed_to_hsv_stub :
    u32.to_hsv 0 = none ∧ u64.to_hsv 0 = none := ⟨rfl, rfl⟩

/-! ## Claim C6 -/

set_option maxRecDepth 8192 in
/-- C6: for every u8 value, converting to u16 (byte replication
`(v << 8) | v`) and back to u8 (high byte `v >> 8`) recovers the value
exactly. -/
theorem u8_u16_roundtrip :
    ∀ v : Fin 256, u16.to_channel_u8 (u8.to_channel_u16 v.val) = v.val := by
  decide

/-! ## Claim C2 -/

/-- C2: `to_hsv` is exactly the composition of (1) converting each RGB
channel to the normalized float representation of the target float
channel, (2) the max/min/chroma hue-sector algorithm run entirely in
float arithmetic, and (3) the identity conversion of the float h, s, v
to the target float encoding — for every input channel encoding (every
to-float conversion `toF`). -/
theorem to_hsv_float_precision (α : Type) (toF : α → ℚ) (c : Rgb α) :
    Rgb.to_hsv toF c = hsvToTarget (rgbToHsvFloat (Rgb.to_rgb toF c)) := rfl

/-! ## Claim C3 -/

/-- C3: the hue produced by `to_hsv` is NOT always in `[0, 360)`: at the
f32 input `Rgb(0.5, 0.0, 0.25)` (identity channel conversion, every step
exact in binary32) the r-is-max branch computes
`((g - b) / chroma) % 6 = -0.5` — Rust `%` keeps the sign of the
dividend — and no wrap is applied, so the result hue is `-30`. -/
theorem to_hsv_negative_hue :
    Rgb.to_hsv (fun q => q) ⟨1/2, 0, 1/4⟩ = ⟨-30, 1, 1/2⟩ ∧
    ¬ 0 ≤ (Rgb.to_hsv (fun q => q) (⟨1/2, 0, 1/4⟩ : Rgb ℚ)).h := by
  constructor
  · norm_num [Rgb.to_hsv, Rgb.to_rgb, chanMax, chanMin, fmodQ, ratTrunc]
  · norm_num [Rgb.to_hsv, Rgb.to_rgb, chanMax, chanMin, fmodQ, ratTrunc]

/-! ## Claim C4 -/

/-- C4: an achromatic color (all three channels equal) has chroma 0, so
`to_hsv` takes the degenerate branch and returns h = 0, s = 0 and v the
common gray level (in the target encoding); in particular u8
`RGB(0,0,0)` maps to `HSV(0,0,0)` and u8 `RGB(255,255,255)` to
`HSV(0,0,1)`. -/
theorem achromatic_to_hsv :
    (∀ (α : Type) (toF : α → ℚ) (x : α), Rgb.to_hsv toF ⟨x, x, x⟩ = ⟨0, 0, toF x⟩) ∧
    Rgb.to_hsv u8.to_channel_f32 ⟨0, 0, 0⟩ = ⟨0, 0, 0⟩ ∧
    Rgb.to_hsv u8.to_channel_f32 ⟨255, 255, 255⟩ = ⟨0, 0, 1⟩ := by
  refine ⟨?_,
    by norm_num [Rgb.to_hsv, Rgb.to_rgb, u8.to_channel_f32, chanMax, chanMin],
    by norm_num [Rgb.to_hsv, Rgb.to_rgb, u8.to_channel_f32, chanMax, chanMin]⟩
  intro α toF x
  simp [Rgb.to_hsv, Rgb.to_rgb, chanMax, chanMin]

/-! ## Helper lemmas on truncation, modulo and clamping -/

lemma ratTrunc_of_nonneg (q : ℚ) (h : 0 ≤ q) : ratTrunc q = ⌊q⌋ := by
  unfold ratTrunc
  rw [if_neg (not_lt.mpr h)]

lemma fmodQ_eq_modReal (a b : ℚ) (ha : 0 ≤ a) (hb : 0 ≤ b) :
    fmodQ a b = modReal a b := by
  unfold fmodQ modReal
  rw [ratTrunc_of_nonneg _ (div_nonneg ha hb)]

lemma modReal_add_right (a b : ℚ) (hb : b ≠ 0) :
    modReal (a + b) b = modReal a b := by
  unfold modReal
  have h : (a + b) / b = a / b + 1 := by field_simp
  rw [h, Int.floor_add_one]
  push_cast
  ring

lemma modReal_nonneg (a b : ℚ) (hb : 0 < b) : 0 ≤ modReal a b := by
  unfold modReal
  have h1 : ((⌊a / b⌋ : ℤ) : ℚ) ≤ a / b := Int.floor_le _
  have h2 : ((⌊a / b⌋ : ℤ) : ℚ) * b ≤ a := (le_div_iff₀ hb).mp h1
  nlinarith

lemma modReal_lt (a b : ℚ) (hb : 0 < b) : modReal a b < b := by
  unfold modReal
  have h1 : a / b < ((⌊a / b⌋ : ℤ) : ℚ) + 1 := Int.lt_floor_add_one _
  have h2 : a < (((⌊a / b⌋ : ℤ) : ℚ) + 1) * b := (div_lt_iff₀ hb).mp h1
  nlinarith

lemma normalize_degrees_eq_modReal (t : ℚ) (h : -360 ≤ t) :
    normalize_degrees t = modReal t 360 := by
  unfold normalize_degrees
  by_cases hneg : t < 0
  · rw [if_pos hneg, fmodQ_eq_modReal _ _ (by linarith) (by norm_num),
        modReal_add_right _ _ (by norm_num)]
  · rw [if_neg hneg, fmodQ_eq_modReal _ _ (by linarith) (by norm_num)]

lemma clampQ_mem (x lo hi : ℚ) (h : lo ≤ hi) :
    lo ≤ clampQ x lo hi ∧ clampQ x lo hi ≤ hi := by
  unfold clampQ
  split_ifs with h1 h2
  · exact ⟨le_refl lo, h⟩
  · exact ⟨h, le_refl hi⟩
  · exact ⟨not_lt.mp h1, not_lt.mp h2⟩

/-! ## Claim C9 -/

/-- C9 counterexample: at `Hsv(-901, 0, 0)` the hue of `inverse()` is
`normalize_degrees(-721) = -1`: negative, and different from the
mathematical `(h + 180) mod 360 = 359`, because `normalize_degrees`
wraps by `+360` only once and Rust float `%` keeps the sign of the
dividend. -/
theorem inverse_cex :
    Hsv.inverse ⟨-901, 0, 0⟩ = ⟨-1, 1, 1⟩ ∧
    (Hsv.inverse (⟨-901, 0, 0⟩ : Hsv ℚ)).h ≠ modReal ((-901 : ℚ) + 180) 360 ∧
    ¬ 0 ≤ (Hsv.inverse (⟨-901, 0, 0⟩ : Hsv ℚ)).h := by
  refine ⟨?_, ?_, ?_⟩ <;>
    norm_num [Hsv.inverse, invert_degrees, normalize_degrees, fmodQ, ratTrunc,
      fchan.invert_channel, modReal]

/-- C9 (amended): for every hue `h ≥ -540`, `inverse()` returns the color
with hue `(h + 180) mod 360`, which lies in `[0, 360)`, and with s and v
the float channel inverts `1 - s` and `1 - v`; for `h < -540` the hue is
not `(h + 180) mod 360` and can be negative, because the single `+360`
wrap of `normalize_degrees` is insufficient there (see the
counterexample). -/
theorem inverse_hue_mod (c : Hsv ℚ) (hb : -540 ≤ c.h) :
    Hsv.inverse c = ⟨modReal (c.h + 180) 360, 1 - c.s, 1 - c.v⟩ ∧
    0 ≤ (Hsv.inverse c).h ∧ (Hsv.inverse c).h < 360 := by
  have h1 : invert_degrees c.h = modReal (c.h + 180) 360 := by
    unfold invert_degrees
    exact normalize_degrees_eq_modReal _ (by linarith)
  have h2 : (Hsv.inverse c).h = invert_degrees c.h := rfl
  refine ⟨?_, ?_, ?_⟩
  · show Hsv.mk (invert_degrees c.h) (fchan.invert_channel c.s)
        (fchan.invert_channel c.v) = _
    rw [h1]
    rfl
  · rw [h2, h1]
    exact modReal_nonneg _ _ (by norm_num)
  · rw [h2, h1]
    exact modReal_lt _ _ (by norm_num)

/-- C9 witness: the amended theorem applied at the concrete input
`Hsv(0, 0, 0)` — the inverse is `Hsv(180, 1, 1)` with hue in range. -/
theorem inverse_hue_mod_witness :
    Hsv.inverse ⟨0, 0, 0⟩ = ⟨modReal ((0 : ℚ) + 180) 360, 1 - 0, 1 - 0⟩ ∧
    0 ≤ (Hsv.inverse (⟨0, 0, 0⟩ : Hsv ℚ)).h ∧
    (Hsv.inverse (⟨0, 0, 0⟩ : Hsv ℚ)).h < 360 :=
  inverse_hue_mod ⟨0, 0, 0⟩ (by norm_num)

/-! ## Claim C10 -/

/-- C10 counterexample: `normalize_degrees(-721) = -1`, not in `[0, 360)`:
for inputs below `-360` the single `+360` wrap is insufficient and Rust
float `%` returns a negative remainder. -/
theorem normalize_degrees_cex :
    normalize_degrees (-721) = -1 ∧ ¬ 0 ≤ normalize_degrees (-721 : ℚ) := by
  norm_num [normalize_degrees, fmodQ, ratTrunc]

/-- C10 (amended): `normalize_degrees h` lies in `[0, 360)` for every
`h ≥ -360` (not for every finite input, see the counterexample), so
`normalize()` returns a hue in `[0, 360)` whenever the input hue is at
least `-360`, and always clamps s and v into `[0, 1]`; `invert_degrees t`
lies in `[0, 360)` for every `t ≥ -540`. -/
theorem normalize_range (c : Hsv ℚ) (t : ℚ) (hb : -360 ≤ c.h) (ht : -540 ≤ t) :
    (0 ≤ (Hsv.normalize c).h ∧ (Hsv.normalize c).h < 360) ∧
    (0 ≤ (Hsv.normalize c).s ∧ (Hsv.normalize c).s ≤ 1) ∧
    (0 ≤ (Hsv.normalize c).v ∧ (Hsv.normalize c).v ≤ 1) ∧
    (0 ≤ invert_degrees t ∧ invert_degrees t < 360) := by
  have hh : (Hsv.normalize c).h = modReal c.h 360 := by
    show normalize_degrees c.h = _
    exact normalize_degrees_eq_modReal _ hb
  have hi : invert_degrees t = modReal (t + 180) 360 := by
    unfold invert_degrees
    exact normalize_degrees_eq_modReal _ (by linarith)
  refine ⟨⟨?_, ?_⟩, ?_, ?_, ⟨?_, ?_⟩⟩
  · rw [hh]
    exact modReal_nonneg _ _ (by norm_num)
  · rw [hh]
    exact modReal_lt _ _ (by norm_num)
  · exact clampQ_mem c.s 0 1 (by norm_num)
  · exact clampQ_mem c.v 0 1 (by norm_num)
  · rw [hi]
    exact modReal_nonneg _ _ (by norm_num)
  · rw [hi]
    exact modReal_lt _ _ (by norm_num)

/-- C10 witness: the amended theorem applied at `Hsv(-30, 2, -5)` and
`t = -540` — the normalized color is `Hsv(330, 1, 0)`. -/
theorem normalize_range_witness :
    ((0 ≤ (Hsv.normalize (⟨-30, 2, -5⟩ : Hsv ℚ)).h ∧
      (Hsv.normalize (⟨-30, 2, -5⟩ : Hsv ℚ)).h < 360) ∧
     (0 ≤ (Hsv.normalize (⟨-30, 2, -5⟩ : Hsv ℚ)).s ∧
      (Hsv.normalize (⟨-30, 2, -5⟩ : Hsv ℚ)).s ≤ 1) ∧
     (0 ≤ (Hsv.normalize (⟨-30, 2, -5⟩ : Hsv ℚ)).v ∧
      (Hsv.normalize (⟨-30, 2, -5⟩ : Hsv ℚ)).v ≤ 1) ∧
     (0 ≤ invert_degrees (-540 : ℚ) ∧ invert_degrees (-540 : ℚ) < 360)) :=
  normalize_range ⟨-30, 2, -5⟩ (-540) (by norm_num) (by norm_num)

/-! ## Claim C5 -/

/-- The claim-side sector table of spec section 4.2 step 3: the triple
selected by the integer sector index `floor(h / 60)`, with `(0, 0, 0)`
for every index outside `0..5`. -/
def sectorTriple (chr x : ℚ) (k : ℤ) : Rgb ℚ :=
  if k = 0 then ⟨chr, x, 0⟩
  else if k = 1 then ⟨x, chr, 0⟩
  else if k = 2 then ⟨0, chr, x⟩
  else if k = 3 then ⟨0, x, chr⟩
  else if k = 4 then ⟨x, 0, chr⟩
  else if k = 5 then ⟨chr, 0, x⟩
  else ⟨0, 0, 0⟩

/-- The amended description of the body of `Hsv::to_rgb`: the sector
table on `floor(h/60)` for nonnegative `h/60` (so `(0,0,0)` exactly when
`h/60 ≥ 6`), while a NEGATIVE `h/60` falls into the first comparison
branch and selects `(chroma, x, 0)`; then `m = v - chroma` is added to
each component. -/
def hsvSectorRgbAmended (c : Hsv ℚ) : Rgb ℚ :=
  let chr := c.v * c.s
  let hp := c.h / 60
  let x := chr * (1 - |fmodQ hp 2 - 1|)
  let tri := if hp < 0 then (⟨chr, x, 0⟩ : Rgb ℚ) else sectorTriple chr x ⌊hp⌋
  let mn := c.v - chr
  ⟨tri.r + mn, tri.g + mn, tri.b + mn⟩

lemma sector_if_eq (chr x hp : ℚ) :
    (if hp < 1 then (⟨chr, x, 0⟩ : Rgb ℚ)
     else if hp < 2 then ⟨x, chr, 0⟩
     else if hp < 3 then ⟨0, chr, x⟩
     else if hp < 4 then ⟨0, x, chr⟩
     else if hp < 5 then ⟨x, 0, chr⟩
     else if hp < 6 then ⟨chr, 0, x⟩
     else ⟨0, 0, 0⟩) =
    (if hp < 0 then ⟨chr, x, 0⟩ else sectorTriple chr x ⌊hp⌋) := by
  unfold sectorTriple
  rcases lt_or_le hp 0 with h0 | h0
  · rw [if_pos (by linarith : hp < 1), if_pos h0]
  rw [if_neg (not_lt.mpr h0)]
  rcases lt_or_le hp 1 with h1 | h1
  · have hf : ⌊hp⌋ = 0 :=
      Int.floor_eq_iff.mpr ⟨by push_cast; linarith, by push_cast; linarith⟩
    rw [if_pos h1, hf]
    norm_num
  rw [if_neg (not_lt.mpr h1)]
  rcases lt_or_le hp 2 with h2 | h2
  · have hf : ⌊hp⌋ = 1 :=
      Int.floor_eq_iff.mpr ⟨by push_cast; linarith, by push_cast; linarith⟩
    rw [if_pos h2, hf]
    norm_num
  rw [if_neg (not_lt.mpr h2)]
  rcases lt_or_le hp 3 with h3 | h3
  · have hf : ⌊hp⌋ = 2 :=
      Int.floor_eq_iff.mpr ⟨by push_cast; linarith, by push_cast; linarith⟩
    rw [if_pos h3, hf]
    norm_num
  rw [if_neg (not_lt.mpr h3)]
  rcases lt_or_le hp 4 with h4 | h4
  · have hf : ⌊hp⌋ = 3 :=
      Int.floor_eq_iff.mpr ⟨by push_cast; linarith, by push_cast; linarith⟩
    rw [if_pos h4, hf]
    norm_num
  rw [if_neg (not_lt.mpr h4)]
  rcases lt_or_le hp 5 with h5 | h5
  · have hf : ⌊hp⌋ = 4 :=
      Int.floor_eq_iff.mpr ⟨by push_cast; linarith, by push_cast; linarith⟩
    rw [if_pos h5, hf]
    norm_num
  rw [if_neg (not_lt.mpr h5)]
  rcases lt_or_le hp 6 with h6 | h6
  · have hf : ⌊hp⌋ = 5 :=
      Int.floor_eq_iff.mpr ⟨by push_cast; linarith, by push_cast; linarith⟩
    rw [if_pos h6, hf]
    norm_num
  rw [if_neg (not_lt.mpr h6)]
  have hf : (6 : ℤ) ≤ ⌊hp⌋ := Int.le_floor.mpr (by push_cast; linarith)
  rw [if_neg (by omega : ¬ ⌊hp⌋ = 0), if_neg (by omega : ¬ ⌊hp⌋ = 1),
      if_neg (by omega : ¬ ⌊hp⌋ = 2), if_neg (by omega : ¬ ⌊hp⌋ = 3),
      if_neg (by omega : ¬ ⌊hp⌋ = 4), if_neg (by omega : ¬ ⌊hp⌋ = 5)]

/-- C5 counterexample: at `Hsv(-60, 1, 1)` the sector index `h/60 = -1`
is outside `[0, 6)`, so per the claim the sector triple would be
`(0, 0, 0)` and (with `m = 0`) the result `Rgb(0, 0, 0)`; the code
instead takes the first branch (`h/60 < 1`) and returns `Rgb(1, -1, 0)`. -/
theorem to_rgb_negative_hue_cex :
    Hsv.to_rgb (fun q : ℚ => q) ⟨-60, 1, 1⟩ = ⟨1, -1, 0⟩ ∧
    (⟨1, -1, 0⟩ : Rgb ℚ) ≠ ⟨0, 0, 0⟩ := by
  constructor
  · norm_num [Hsv.to_rgb, Rgb.to_rgb, fmodQ, ratTrunc]
  · norm_num [Rgb.mk.injEq]

/-- C5 (amended): for every HSV input and every target encoding,
`to_rgb` computes chroma, `x` and `m` as the claim states and selects by
the sector table on `floor(h/60)` for every `h/60 ≥ 0` — in particular
`(0, 0, 0)` for `h/60 ≥ 6` — but a NEGATIVE `h/60` selects
`(chroma, x, 0)` (the first comparison catches it), not `(0, 0, 0)`;
the conversion is a total function and never fails. -/
theorem to_rgb_sector_amended (α : Type) (fromF : ℚ → α) (c : Hsv ℚ) :
    Hsv.to_rgb fromF c = Rgb.to_rgb fromF (hsvSectorRgbAmended c) := by
  simp only [Hsv.to_rgb, hsvSectorRgbAmended]
  rw [sector_if_eq]

/-! ## Claim C7

The integer inverts are bitwise complements and involutive on the nose;
the float invert `1.0 - v` is involutive in exact arithmetic, but an f32
computes the correctly rounded difference, and the double rounding is
not the identity on every representable value.  The rounding model
below makes that one machine-precision fact checkable. -/

/-- Binary exponent search for the rounding model: for `q > 0` in the
range reached by the fuel, the exponent `e` with
`2 ^ e ≤ q < 2 ^ (e + 1)`, found by repeated halving or doubling (fuel
300 covers the whole binary32 normal range). -/
def findE : ℕ → ℚ → ℤ
  | 0, _ => 0
  | fuel + 1, q =>
    if 2 ≤ q then findE fuel (q / 2) + 1
    else if q < 1 then findE fuel (2 * q) - 1
    else 0

/-- Integer powers of two as rationals. -/
def zpow2 (e : ℤ) : ℚ :=
  if 0 ≤ e then ((2 ^ e.toNat : ℕ) : ℚ) else 1 / ((2 ^ (-e).toNat : ℕ) : ℚ)

/-- Rounding to the nearest integer, ties to even. -/
def rne (q : ℚ) : ℤ :=
  if q - ⌊q⌋ < 1/2 then ⌊q⌋
  else if 1/2 < q - ⌊q⌋ then ⌊q⌋ + 1
  else if ⌊q⌋ % 2 = 0 then ⌊q⌋ else ⌊q⌋ + 1

/-- IEEE-754 binary32 rounding (round to nearest, ties to even) of an
exact rational whose magnitude is 0 or in the binary32 normal range: a
value with exponent `e` is rounded on the significand grid
`2 ^ (e - 23)` (24-bit significand).  Every IEEE binary32 arithmetic
operation returns the correctly rounded exact result, so `fl32 (a - b)`
is the faithful value of an f32 subtraction of representable operands. -/
def fl32 (q : ℚ) : ℚ :=
  if q = 0 then 0
  else if 0 < q then
    (rne (q / zpow2 (findE 300 q - 23)) : ℚ) * zpow2 (findE 300 q - 23)
  else
    -((rne (-q / zpow2 (findE 300 (-q) - 23)) : ℚ) * zpow2 (findE 300 (-q) - 23))

/-- src/channel.rs line 97, `1.0 - self` on f32, with the machine
rounding made explicit: the exact difference, correctly rounded to
binary32. -/
def f32.invert_channel (q : ℚ) : ℚ := fl32 (1 - q)

lemma findE_unit (f : ℕ) (q : ℚ) (h1 : 1 ≤ q) (h2 : q < 2) : findE f q = 0 := by
  cases f with
  | zero => rfl
  | succ n =>
    unfold findE
    rw [if_neg (not_le.mpr h2), if_neg (not_lt.mpr h1)]

lemma findE_half (f : ℕ) (q : ℚ) (h1 : 1/2 ≤ q) (h2 : q < 1) :
    findE (f + 1) q = -1 := by
  unfold findE
  rw [if_neg (by linarith : ¬ (2 : ℚ) ≤ q), if_pos h2,
      findE_unit f (2 * q) (by linarith) (by linarith)]
  norm_num

lemma fl32_one_sub_small : fl32 (1 - 1/2^30) = 1 := by
  have hz : zpow2 (-1 - 23) = 1/2^24 := by
    unfold zpow2
    rw [if_neg (by norm_num : ¬ (0 : ℤ) ≤ -1 - 23),
        show ((-(-1 - 23) : ℤ)).toNat = 24 from rfl]
    norm_num
  unfold fl32
  rw [if_neg (by norm_num : ¬ (1 - 1/2^30 : ℚ) = 0),
      if_pos (by norm_num : (0 : ℚ) < 1 - 1/2^30),
      show (300 : ℕ) = 299 + 1 from rfl,
      findE_half 299 _ (by norm_num) (by norm_num), hz]
  have hf : ⌊((1 - 1/2^30 : ℚ) / (1/2^24))⌋ = 2^24 - 1 := by norm_num
  have hr : rne ((1 - 1/2^30 : ℚ) / (1/2^24)) = 2^24 := by
    unfold rne
    rw [hf]
    norm_num
  rw [hr]
  norm_num

/-- C7 counterexample: in the f32 encoding the invert is not an exact
involution: at `v = 2 ^ (-30)` (exactly representable in binary32) the
first subtraction `1.0 - v` rounds to `1.0`, so the double invert
returns `0`, not `v`. -/
theorem invert_f32_not_involution :
    f32.invert_channel (f32.invert_channel (1/2^30)) ≠ (1/2^30 : ℚ) := by
  have h1 : f32.invert_channel (1/2^30) = 1 := fl32_one_sub_small
  rw [h1]
  have h2 : f32.invert_channel 1 = 0 := by
    unfold f32.invert_channel
    norm_num [fl32]
  rw [h2]
  norm_num

/-- C7 (amended): `invert_channel` is an exact involution for the
integer channel encodings (bitwise complement) and an involution of the
float invert in exact real arithmetic (`1 - (1 - v) = v`); on machine
floats the involution is not exact for every value (see the
counterexample). -/
theorem invert_involution_amended :
    (∀ v : ℕ, u8.invert_channel (u8.invert_channel v) = v) ∧
    (∀ v : ℕ, u16.invert_channel (u16.invert_channel v) = v) ∧
    (∀ q : ℚ, fchan.invert_channel (fchan.invert_channel q) = q) := by
  refine ⟨fun v => ?_, fun v => ?_, fun q => ?_⟩
  · simp [u8.invert_channel, Nat.xor_assoc]
  · simp [u16.invert_channel, Nat.xor_assoc]
  · unfold fchan.invert_channel
    ring
